import Mathlib

/-!
Shallow embedding of the enigmind puzzle-generation core (src/lib/src of the
repository) and proofs about it.

Modelling conventions:
* Rust `u8`/`u32`/`usize` values are embedded as `ℕ`.  Where a claim's scope
  stays below the machine width the arithmetic is exact; theorems that depend
  on u32-representability carry an explicit `≤ 2 ^ 32` hypothesis.  `u8`
  accumulations that wrap in release builds (digit sums in rule evaluation,
  the `len * base` threshold bound) are modelled with an explicit `% 256`.
* The external bit-vector collaborator (`nbitmask::BitMask`) is modelled as a
  `Finset ℕ` of the set bit indices: `ones n = Finset.range n`, AND is `∩`,
  OR is `∪`, `count_ones` is `card`, `trailing_zeros` is the least element.
* Fallible Rust code (`Result`, panics, the unbounded selection loop) is
  modelled with the `GenOutcome` type: `error` is a propagated
  `EnigmindError`, `panic` is a Rust panic (unwrap / division by zero),
  `outOfFuel` is the modelling artefact for the unbounded `while` loop.
* `rand::thread_rng()` draws are externalised as an explicit stream
  `s : ℕ → ℕ` of raw numbers together with a running index; a draw from a
  collection of size `k` is `s idx % k`.
-/

namespace Enigmind

/-- `GameConfiguration` from setup.rs (fields `column_count`, `base`,
`min_difficulty`, all `u8` in the source). -/
structure GameConfiguration where
  column_count : ℕ
  base : ℕ
  min_difficulty : ℕ
deriving DecidableEq

/-- `solution_count()` from setup.rs: `base.pow(column_count)`. -/
def GameConfiguration.solution_count (gc : GameConfiguration) : ℕ :=
  gc.base ^ gc.column_count

/-- `Code` from code.rs: a wrapper around a digit vector (`Vec<u8>`). -/
structure Code where
  digits : List ℕ
deriving DecidableEq

/-- `Code::get_shift` inner fold from code.rs: iterate the digits reversed,
adding `digit * base ^ current_column` and incrementing `current_column`. -/
def get_shiftAux (base : ℕ) : List ℕ → ℕ → ℕ → ℕ
  | [], shift, _ => shift
  | x :: xs, shift, col => get_shiftAux base xs (shift + x * base ^ col) (col + 1)

/-- `Code::get_shift` from code.rs (u32 arithmetic; exact over `ℕ` while
`base ^ column_count ≤ 2 ^ 32`, the regime the round-trip theorems assume). -/
def Code.get_shift (c : Code) (gc : GameConfiguration) : ℕ :=
  get_shiftAux gc.base c.digits.reverse 0 0

/-- `Code::from_shift` from code.rs: digit at loop index `column` is
`shift / base ^ column % base`, then the digit vector is reversed.
For `base = 0` and `column_count ≥ 1` the source panics on `% 0`; here `% 0`
is Lean's total convention, and the theorems below treat that configuration
explicitly. -/
def Code.from_shift (shift : ℕ) (gc : GameConfiguration) : Code :=
  ⟨((List.range gc.column_count).map
      (fun column => shift / gc.base ^ column % gc.base)).reverse⟩

/-- `Code::get` from code.rs: fallible digit lookup by column index. -/
def Code.get (c : Code) (column : ℕ) : Option ℕ :=
  c.digits.get? column

/-- `Game::is_solution_compatible` from setup.rs: length must equal
`column_count` and no digit may reach `base`. -/
def solutionCompatible (gc : GameConfiguration) (code : Code) : Bool :=
  if code.digits.length ≠ gc.column_count then false
  else if code.digits.any (fun f => decide (gc.base ≤ f)) then false
  else true

/- ### Arithmetic facts about the shift encoding -/

theorem get_shiftAux_eq (base : ℕ) :
    ∀ (l : List ℕ) (shift col : ℕ),
      get_shiftAux base l shift col = shift + Nat.ofDigits base l * base ^ col := by
  intro l
  induction l with
  | nil => intro shift col; simp [get_shiftAux]
  | cons x xs ih =>
      intro shift col
      rw [get_shiftAux, ih, Nat.ofDigits_cons]
      ring

theorem get_shift_eq_ofDigits (c : Code) (gc : GameConfiguration) :
    c.get_shift gc = Nat.ofDigits gc.base c.digits.reverse := by
  rw [Code.get_shift, get_shiftAux_eq]
  simp

/-- Reading back the base-`b` digit expansion of `s % b ^ k` built by
`from_shift`'s loop. -/
theorem ofDigits_range_map (b : ℕ) :
    ∀ (k s : ℕ),
      Nat.ofDigits b ((List.range k).map (fun i => s / b ^ i % b)) = s % b ^ k := by
  intro k
  induction k with
  | zero => intro s; simp [Nat.mod_one]
  | succ k ih =>
      intro s
      rw [List.range_succ, List.map_append, Nat.ofDigits_append, ih]
      simp only [List.map_cons, List.map_nil, Nat.ofDigits_cons, Nat.ofDigits_nil,
        List.length_map, List.length_range]
      have : b ^ (k + 1) = b ^ k * b := by ring
      rw [this, Nat.mod_mul]
      ring

/-- Digit extraction from `Nat.ofDigits`: if every digit is `< b` then
dividing by `b ^ i` and reducing mod `b` recovers digit `i`. -/
theorem ofDigits_div_pow_mod (b : ℕ) :
    ∀ (l : List ℕ), (∀ d ∈ l, d < b) →
      ∀ i, Nat.ofDigits b l / b ^ i % b = l.getD i 0 := by
  intro l
  induction l with
  | nil => intro _ i; simp
  | cons x xs ih =>
      intro hd i
      have hb : 0 < b := lt_of_le_of_lt (Nat.zero_le x) (hd x (by simp))
      cases i with
      | zero =>
          simp only [Nat.ofDigits_cons, pow_zero, Nat.div_one, List.getD_cons_zero]
          rw [Nat.add_mul_mod_self_left]
          exact Nat.mod_eq_of_lt (hd x (by simp))
      | succ i =>
          have hstep : (↑x + b * Nat.ofDigits b xs) / b ^ (i + 1)
              = Nat.ofDigits b xs / b ^ i := by
            rw [pow_succ, mul_comm (b ^ i) b, ← Nat.div_div_eq_div_mul,
              Nat.add_mul_div_left _ _ hb,
              Nat.div_eq_of_lt (hd x (by simp)), zero_add]
          simp only [Nat.ofDigits_cons, List.getD_cons_succ]
          rw [hstep]
          exact ih (fun d hdm => hd d (by simp [hdm])) i

/-- `Nat.ofDigits` of an all-small digit list is below `b ^ length`. -/
theorem ofDigits_lt_pow (b : ℕ) :
    ∀ (l : List ℕ), (∀ d ∈ l, d < b) → Nat.ofDigits b l < b ^ l.length := by
  intro l
  induction l with
  | nil => intro _; simp
  | cons x xs ih =>
      intro hd
      have hx : x < b := hd x (by simp)
      have hxs : Nat.ofDigits b xs < b ^ xs.length :=
        ih (fun d hdm => hd d (by simp [hdm]))
      have h1 : Nat.ofDigits b xs + 1 ≤ b ^ xs.length := hxs
      calc (Nat.ofDigits b (x :: xs) : ℕ)
          = x + b * Nat.ofDigits b xs := by rw [Nat.ofDigits_cons]
        _ < b + b * Nat.ofDigits b xs := by omega
        _ = b * (Nat.ofDigits b xs + 1) := by ring
        _ ≤ b * b ^ xs.length := Nat.mul_le_mul_left b h1
        _ = b ^ (x :: xs).length := by rw [List.length_cons]; ring

theorem from_shift_digits_length (shift : ℕ) (gc : GameConfiguration) :
    (Code.from_shift shift gc).digits.length = gc.column_count := by
  simp [Code.from_shift]

theorem from_shift_digits_lt (shift : ℕ) (gc : GameConfiguration)
    (hb : 1 ≤ gc.base) :
    ∀ d ∈ (Code.from_shift shift gc).digits, d < gc.base := by
  intro d hd
  simp only [Code.from_shift, List.mem_reverse, List.mem_map,
    List.mem_range] at hd
  obtain ⟨i, _, rfl⟩ := hd
  exact Nat.mod_lt _ hb

/-- Out-of-range shifts wrap modulo `base ^ column_count`. -/
theorem from_shift_mod (shift : ℕ) (gc : GameConfiguration) :
    Code.from_shift (shift % gc.solution_count) gc = Code.from_shift shift gc := by
  unfold Code.from_shift
  congr 1
  congr 1
  apply List.map_congr_left
  intro i hi
  simp only [List.mem_range] at hi
  have hsplit : gc.solution_count = gc.base ^ i * gc.base ^ (gc.column_count - i) := by
    rw [GameConfiguration.solution_count, ← pow_add]
    congr 1
    omega
  have hdvd : gc.base ∣ gc.base ^ (gc.column_count - i) :=
    dvd_pow_self gc.base (by omega)
  rw [hsplit, Nat.mod_mul_right_div_self, Nat.mod_mod_of_dvd _ hdvd]

/- ### Rule model (rule.rs) -/

/-- `Operator` from rule.rs. -/
inductive Operator where
  | Pair
  | Impair
  | Lowest
  | Highest
  | SumBelow (n : ℕ)
  | SumEquals (n : ℕ)
  | SumAbove (n : ℕ)
deriving DecidableEq

/-- `Rule` from rule.rs.  `ColumnSet` (columns.rs), a `HashSet<Column>`, is
modelled as a `Finset ℕ` of column indices. -/
inductive Rule where
  | MatchesOp (op : Operator) (columns : Finset ℕ)
  | XColumnsEquals (count value : ℕ)
deriving DecidableEq

/-- `Rule::evaluate` from rule.rs.  Any referenced column index out of bounds
yields `none` (the source's `Err(ColumnIndexOutOfBounds)`); the `&=`-folds
over the `HashSet` iteration are order-independent and appear as bounded
quantifiers; digit sums accumulate in a `u8`, hence the `% 256`. -/
def Rule.evaluate : Rule → Code → Option Bool
  | .XColumnsEquals count value, code =>
      some (decide ((code.digits.filter (fun x => decide (x = value))).length = count))
  | .MatchesOp op columns, code =>
      if ∀ c ∈ columns, c < code.digits.length then
        some (match op with
          | .Pair => decide (∀ c ∈ columns, code.digits.getD c 0 % 2 = 0)
          | .Impair => decide (∀ c ∈ columns, code.digits.getD c 0 % 2 = 1)
          | .Highest => decide (∀ c ∈ columns,
              code.digits.getD c 0 = (code.digits.max?).getD 0 ∧
              (code.digits.filter
                (fun x => decide (x = (code.digits.max?).getD 0))).length = 1)
          | .Lowest => decide (∀ c ∈ columns,
              code.digits.getD c 0 = (code.digits.min?).getD 0 ∧
              (code.digits.filter
                (fun x => decide (x = (code.digits.min?).getD 0))).length = 1)
          | .SumBelow value => decide ((∑ c ∈ columns, code.digits.getD c 0) % 256 < value)
          | .SumEquals value => decide ((∑ c ∈ columns, code.digits.getD c 0) % 256 = value)
          | .SumAbove value => decide (value < (∑ c ∈ columns, code.digits.getD c 0) % 256))
      else none

/-- `Rule::get_mask` from rule.rs: evaluate the rule on the decoded code of
every index in `[0, solution_count)`; any evaluation error aborts with `Err`
(`none` here), otherwise the mask is the set of indices evaluating to true. -/
def Rule.get_mask (r : Rule) (gc : GameConfiguration) : Option (Finset ℕ) :=
  if ∀ i ∈ Finset.range gc.solution_count, (r.evaluate (Code.from_shift i gc)).isSome
  then some ((Finset.range gc.solution_count).filter
      (fun i => r.evaluate (Code.from_shift i gc) = some true))
  else none

/- ### Column combinations (setup.rs, `GameConfiguration`) -/

/-- The `multi_cartesian_product` of `column_count` copies of
`0..column_count` used by `get_all_column_combinations`: all tuples of the
given length over `0..m`. -/
def multiProd (m : ℕ) : ℕ → List (List ℕ)
  | 0 => [[]]
  | k + 1 => ((List.range m).map
      (fun i => (multiProd m k).map (fun t => i :: t))).flatten

/-- `GameConfiguration::get_all_column_combinations` from setup.rs: collapse
every tuple of the product to a set and deduplicate.  The source accumulates
into a `HashSet<ColumnSet>`; the deduplicated collection is modelled as a
duplicate-free list (its enumeration order, unspecified for a `HashSet`,
is fixed by `dedup`; no theorem depends on it). -/
def GameConfiguration.get_all_column_combinations
    (gc : GameConfiguration) : List (Finset ℕ) :=
  ((multiProd gc.column_count gc.column_count).map
      (fun t => t.toFinset)).dedup

/-- `GameConfiguration::get_column_combinations` from setup.rs: retain the
combinations of the requested size. -/
def GameConfiguration.get_column_combinations
    (gc : GameConfiguration) (len : ℕ) : List (Finset ℕ) :=
  gc.get_all_column_combinations.filter (fun cs => decide (cs.card = len))

/- ### Display modelling (column.rs, columns.rs, rule.rs, criteria.rs) -/

/-- Ascending enumeration of a `Finset ℕ`, used to give displays a concrete
order (the source iterates a `HashSet`, whose order is unspecified; no
theorem depends on this order). -/
def finsetAscList (cs : Finset ℕ) : List ℕ :=
  (List.range (cs.sup id + 1)).filter (fun i => decide (i ∈ cs))

/-- `impl Display for Column` from column.rs: the letter `(index + 65)`. -/
def columnDisplay (i : ℕ) : String :=
  String.mk [Char.ofNat (i + 65)]

/-- `impl Display for ColumnSet` from columns.rs: the bracketed,
comma-separated column letters (enumeration order fixed as ascending). -/
def columnSetDisplay (cs : Finset ℕ) : String :=
  "[" ++ String.intercalate ", " ((finsetAscList cs).map columnDisplay) ++ "]"

/-- `impl Display for Operator` from rule.rs. -/
def operatorDisplay : Operator → String
  | .Pair => "even"
  | .Impair => "odd"
  | .Lowest => "lowest"
  | .Highest => "highest"
  | .SumBelow _ => "below"
  | .SumEquals _ => "equal to"
  | .SumAbove _ => "above"

/-- `impl Display for Rule` from rule.rs. -/
def ruleDisplay : Rule → String
  | .XColumnsEquals count value =>
      "XColumnsEquals(" ++ Nat.repr count ++ ", " ++ Nat.repr value ++ ")"
  | .MatchesOp op columns =>
      match op with
      | .Lowest => "IsLowest(" ++ columnSetDisplay columns ++ ")"
      | .Highest => "IsHighest(" ++ columnSetDisplay columns ++ ")"
      | .Pair => "IsPair(" ++ columnSetDisplay columns ++ ")"
      | .Impair => "IsImpair(" ++ columnSetDisplay columns ++ ")"
      | .SumBelow value =>
          "SumBelow(" ++ columnSetDisplay columns ++ ", " ++ Nat.repr value ++ ")"
      | .SumEquals value =>
          "SumEquals(" ++ columnSetDisplay columns ++ ", " ++ Nat.repr value ++ ")"
      | .SumAbove value =>
          "SumAbove(" ++ columnSetDisplay columns ++ ", " ++ Nat.repr value ++ ")"

/- ### Similar-rule groups (rule.rs, `Rule::get_similar`) -/

/-- `Rule::get_similar` from rule.rs: the candidate
`(description, rule list)` obfuscation groups for a rule. -/
def Rule.get_similar (r : Rule) (gc : GameConfiguration) :
    List (String × List Rule) :=
  match r with
  | .MatchesOp op columns =>
      match op with
      | .Pair =>
          [("Column is pair or impair",
              [Rule.MatchesOp .Pair columns, Rule.MatchesOp .Impair columns]),
           ("One of the column is pair",
              (gc.get_column_combinations columns.card).map
                (fun c => Rule.MatchesOp .Pair c))]
      | .Impair =>
          [("Column is pair or impair",
              [Rule.MatchesOp .Pair columns, Rule.MatchesOp .Impair columns]),
           ("One of the column is pair",
              (gc.get_column_combinations columns.card).map
                (fun c => Rule.MatchesOp .Impair c))]
      | .Lowest =>
          [("One of the column is the lowest",
              (gc.get_column_combinations columns.card).map
                (fun c => Rule.MatchesOp .Lowest c))]
      | .Highest =>
          [("One of the column is the highest",
              (gc.get_column_combinations columns.card).map
                (fun c => Rule.MatchesOp .Highest c))]
      | .SumBelow value =>
          [("Column(s) " ++ columnSetDisplay columns
              ++ " sum is below, equal or above " ++ Nat.repr value,
              [Rule.MatchesOp (.SumBelow value) columns,
               Rule.MatchesOp (.SumEquals value) columns,
               Rule.MatchesOp (.SumAbove value) columns]),
           ("Sum of " ++ Nat.repr columns.card ++ " columns is "
              ++ operatorDisplay (.SumBelow value) ++ " " ++ Nat.repr value,
              (gc.get_column_combinations columns.card).map
                (fun cs => Rule.MatchesOp (.SumBelow value) cs))]
      | .SumEquals value =>
          [("Column(s) " ++ columnSetDisplay columns
              ++ " sum is below, equal or above " ++ Nat.repr value,
              [Rule.MatchesOp (.SumBelow value) columns,
               Rule.MatchesOp (.SumEquals value) columns,
               Rule.MatchesOp (.SumAbove value) columns]),
           ("Sum of " ++ Nat.repr columns.card ++ " columns is "
              ++ operatorDisplay (.SumEquals value) ++ " " ++ Nat.repr value,
              (gc.get_column_combinations columns.card).map
                (fun cs => Rule.MatchesOp (.SumEquals value) cs))]
      | .SumAbove value =>
          [("Column(s) " ++ columnSetDisplay columns
              ++ " sum is below, equal or above " ++ Nat.repr value,
              [Rule.MatchesOp (.SumBelow value) columns,
               Rule.MatchesOp (.SumEquals value) columns,
               Rule.MatchesOp (.SumAbove value) columns]),
           ("Sum of " ++ Nat.repr columns.card ++ " columns is "
              ++ operatorDisplay (.SumAbove value) ++ " " ++ Nat.repr value,
              (gc.get_column_combinations columns.card).map
                (fun cs => Rule.MatchesOp (.SumAbove value) cs))]
  | .XColumnsEquals _ value =>
      [("There are X columns that equals " ++ Nat.repr value,
          (List.range (gc.column_count + 1)).map
            (fun i => Rule.XColumnsEquals i value))]

/- ### Verifiers, criterias, games (verifier.rs, criteria.rs, setup.rs) -/

/-- `Verifier` from verifier.rs: a rule with its precomputed mask. -/
structure Verifier where
  rule : Rule
  mask : Finset ℕ
deriving DecidableEq

/-- `Criteria` from criteria.rs: a verifier, a description, and the decoy
rule list (`Rules` is a plain `Vec<Rule>` wrapper). -/
structure Criteria where
  verif : Verifier
  description : String
  rules : List Rule
deriving DecidableEq

/-- `Game` from setup.rs (`Criterias` is a plain `Vec<Criteria>` wrapper). -/
structure Game where
  configuration : GameConfiguration
  criterias : List Criteria
  code : Code
deriving DecidableEq

/-- Outcome of a modelled generation step: `ok` is the Rust `Ok` value,
`error` a propagated `EnigmindError`, `panic` a Rust panic, `outOfFuel` the
modelling artefact for the source's unbounded selection loop. -/
inductive GenOutcome (α : Type) where
  | ok (a : α)
  | error
  | panic
  | outOfFuel
deriving DecidableEq

/-- Sequencing of modelled generation steps (`?` plus panic propagation). -/
def GenOutcome.bind {α β : Type} : GenOutcome α → (α → GenOutcome β) → GenOutcome β
  | .ok a, f => f a
  | .error, _ => .error
  | .panic, _ => .panic
  | .outOfFuel, _ => .outOfFuel

/-- `BitMask::ones(solution_count)` followed by `&=` with every listed mask:
the intersection of a list of masks seeded with the all-ones mask. -/
def interMasks (n : ℕ) (ms : List (Finset ℕ)) : Finset ℕ :=
  ms.foldl (fun a m => a ∩ m) (Finset.range n)

/-- `BitMask::trailing_zeros`: the index of the lowest set bit (only ever
used on masks with at least one set bit). -/
def trailing_zeros (mask : Finset ℕ) : ℕ :=
  WithBot.unbot' 0 mask.min

/- ### Rule universe generation (setup.rs, `generate_rules`) -/

/-- The rule list built by `generate_rules` in setup.rs before the
difficulty filter: the four one-column operators for every size-1
combination, the three sum operators over every combination for every
threshold below `len * base` (a `u8` product, wrapping at 256), and
`XColumnsEquals` for every `count in 0..=column_count`, `value in 0..base`. -/
def rulesUniverse (gc : GameConfiguration) : List Rule :=
  ((gc.get_column_combinations 1).flatMap (fun cs =>
      [Rule.MatchesOp .Pair cs, Rule.MatchesOp .Impair cs,
       Rule.MatchesOp .Lowest cs, Rule.MatchesOp .Highest cs]))
  ++ (gc.get_all_column_combinations.flatMap (fun cs =>
      (List.range (cs.card * gc.base % 256)).flatMap (fun v =>
        [Rule.MatchesOp (.SumBelow v) cs,
         Rule.MatchesOp (.SumEquals v) cs,
         Rule.MatchesOp (.SumAbove v) cs])))
  ++ ((List.range (gc.column_count + 1)).flatMap (fun count =>
      (List.range gc.base).map (fun v => Rule.XColumnsEquals count v)))

/-- The difficulty filter predicate of `generate_rules`:
`ones_count > 0 && ones_count * 100 / solution_count > min_difficulty`,
with a failing `get_mask` mapped to `false` (`unwrap_or(false)`). -/
def difficultyKeep (gc : GameConfiguration) (r : Rule) : Bool :=
  match r.get_mask gc with
  | some mask => decide (0 < mask.card) &&
      decide (gc.min_difficulty < mask.card * 100 / gc.solution_count)
  | none => false

/-- `generate_rules` from setup.rs.  The `println!` loop propagates any
`get_mask` error first; then the `retain` filter divides by
`solution_count`, a `usize` division that panics when `solution_count = 0`
and at least one rule is examined. -/
def generate_rules (gc : GameConfiguration) : GenOutcome (List Rule) :=
  if ¬ (∀ r ∈ rulesUniverse gc, (r.get_mask gc).isSome) then .error
  else if gc.solution_count = 0 ∧ rulesUniverse gc ≠ [] then .panic
  else .ok ((rulesUniverse gc).filter (fun r => difficultyKeep gc r))

/- ### Verifier selection and cleanup (setup.rs, `generate_verificators`) -/

/-- The `while final_bitmask.count_ones() > 1` selection loop of
`generate_verificators`, with the `rand::thread_rng()` draw externalised as
`rl[s idx % rl.length]` (an empty rule list makes `choose(..).unwrap()`
panic) and a fuel bound standing in for the source's unbounded loop. -/
def reduceLoop (gc : GameConfiguration) (rl : List Rule) (s : ℕ → ℕ)
    (fuel : ℕ) (W : Finset ℕ) (acc : List Verifier) (idx : ℕ) :
    GenOutcome (Finset ℕ × List Verifier × ℕ) :=
  if W.card ≤ 1 then .ok (W, acc, idx)
  else
    match fuel with
    | 0 => .outOfFuel
    | fuel + 1 =>
      match rl.get? (s idx % rl.length) with
      | none => .panic
      | some rule =>
        match rule.get_mask gc with
        | none => .error
        | some mask =>
          if (W ∩ mask).card = 0 then reduceLoop gc rl s fuel W acc (idx + 1)
          else if W ∩ mask = W then reduceLoop gc rl s fuel W acc (idx + 1)
          else reduceLoop gc rl s fuel (W ∩ mask) (acc ++ [⟨rule, mask⟩]) (idx + 1)

/-- Stable ascending insertion by mask population count, modelling Rust's
stable `sort_by_key`. -/
def insertByCount (v : Verifier) : List Verifier → List Verifier
  | [] => [v]
  | w :: ws =>
      if v.mask.card ≤ w.mask.card then v :: w :: ws else w :: insertByCount v ws

/-- `sort_by_key(|v| v.mask.count_ones())` from setup.rs as a stable
insertion sort (ascending; the caller reverses afterwards). -/
def sortByCount : List Verifier → List Verifier
  | [] => []
  | v :: vs => insertByCount v (sortByCount vs)

/-- The cleanup pass of `generate_verificators` (setup.rs lines 277-292):
`final_verificators.retain(..)` iterates the cloned list (`todo`) while the
closure recomputes `other` from `verificators_before_cleanup` (`before`) —
and, crucially, removes every verifier found redundant from `before` itself,
so later iterations see a shrunk list. -/
def cleanupLoop (gc : GameConfiguration) :
    List Verifier → List Verifier → List Verifier
  | [], _ => []
  | v :: todo, before =>
    if v.mask ∪ interMasks gc.solution_count
        ((before.filter (fun w => decide (w ≠ v))).map (fun w => w.mask)) = v.mask
    then cleanupLoop gc todo (before.filter (fun w => decide (w ≠ v)))
    else v :: cleanupLoop gc todo before

/-- `generate_verificators` from setup.rs: run the selection loop from the
all-ones mask, sort the accepted verifiers by descending population count,
run the cleanup pass, and decode the surviving bit index into the code. -/
def generate_verificators (rl : List Rule) (gc : GameConfiguration)
    (s : ℕ → ℕ) (fuel idx : ℕ) : GenOutcome ((Code × List Verifier) × ℕ) :=
  (reduceLoop gc rl s fuel (Finset.range gc.solution_count) [] idx).bind
    (fun r =>
      .ok ((Code.from_shift (trailing_zeros r.1) gc,
            cleanupLoop gc ((sortByCount r.2.1).reverse)
              ((sortByCount r.2.1).reverse)), r.2.2))

/- ### Criteria generation and game assembly (setup.rs) -/

/-- The loop body of `generate_criterias` from setup.rs: for each verifier,
draw one similar-rule group (`choose(..).unwrap()` panics if there is none)
and wrap it into a `Criteria`. -/
def criteriasLoop (gc : GameConfiguration) (s : ℕ → ℕ) :
    List Verifier → ℕ → GenOutcome (List Criteria × ℕ)
  | [], idx => .ok ([], idx)
  | v :: rest, idx =>
    match (v.rule.get_similar gc).get? (s idx % (v.rule.get_similar gc).length) with
    | none => .panic
    | some g =>
      (criteriasLoop gc s rest (idx + 1)).bind
        (fun r => .ok (⟨v, g.1, g.2⟩ :: r.1, r.2))

/-- `generate_game` from setup.rs.  After `generate_verificators` succeeds
the source computes `sum_complexity / verificators.len()`, a `u32` division
that panics when the final verifier list is empty; only then are the
criterias generated and the `Game` assembled. -/
def generate_game (base column_count difficulty_pct : ℕ)
    (fuel : ℕ) (s : ℕ → ℕ) : GenOutcome Game :=
  (generate_rules ⟨column_count, base, min difficulty_pct 100⟩).bind (fun rl =>
    (generate_verificators rl ⟨column_count, base, min difficulty_pct 100⟩
        s fuel 0).bind (fun r =>
      if r.1.2.length = 0 then .panic
      else
        (criteriasLoop ⟨column_count, base, min difficulty_pct 100⟩
            s r.1.2 r.2).bind (fun c =>
          .ok ⟨⟨column_count, base, min difficulty_pct 100⟩, c.1, r.1.1⟩)))

/- ### Criteria display (criteria.rs, `impl Display for Criteria`) -/

/-- `impl Display for Criteria` from criteria.rs, one output line per list
entry: the description line, the `"Rules : {rule} {mask}."` line showing the
verifier's true rule and mask (the mask's textual rendering lives in the
external bit-vector crate and is taken as a parameter), and one line per
listed rule — with `" (*)"` appended exactly when the listed rule equals
the verifier's true rule. -/
def criteriaDisplayLines (renderMask : Finset ℕ → String)
    (c : Criteria) : List String :=
  ("Criteria : " ++ c.description ++ ".")
  :: ("Rules : " ++ ruleDisplay c.verif.rule ++ " " ++ renderMask c.verif.mask ++ ".")
  :: c.rules.map (fun rule =>
      "\t" ++ ruleDisplay rule
        ++ (if rule = c.verif.rule then " (*)" else ""))

/- ### Lemmas about mask intersections -/

theorem mem_foldl_inter (x : ℕ) (ms : List (Finset ℕ)) : ∀ (init : Finset ℕ),
    (x ∈ ms.foldl (fun a m => a ∩ m) init ↔ x ∈ init ∧ ∀ m ∈ ms, x ∈ m) := by
  induction ms with
  | nil => intro init; simp
  | cons m ms ih =>
      intro init
      rw [List.foldl_cons, ih]
      simp only [Finset.mem_inter, List.mem_cons]
      constructor
      · rintro ⟨⟨h1, h2⟩, h3⟩
        exact ⟨h1, by rintro m' (rfl | hm') <;> [exact h2; exact h3 m' hm']⟩
      · rintro ⟨h1, h2⟩
        exact ⟨⟨h1, h2 m (Or.inl rfl)⟩, fun m' hm' => h2 m' (Or.inr hm')⟩

theorem mem_interMasks {x n : ℕ} {ms : List (Finset ℕ)} :
    x ∈ interMasks n ms ↔ x ∈ Finset.range n ∧ ∀ m ∈ ms, x ∈ m :=
  mem_foldl_inter x ms (Finset.range n)

theorem mem_interMasks_verifs {x n : ℕ} {l : List Verifier} :
    x ∈ interMasks n (l.map (fun w => w.mask))
      ↔ x ∈ Finset.range n ∧ ∀ v ∈ l, x ∈ v.mask := by
  rw [mem_interMasks]
  simp

theorem interMasks_congr {n : ℕ} {l₁ l₂ : List Verifier}
    (h : ∀ v, v ∈ l₁ ↔ v ∈ l₂) :
    interMasks n (l₁.map (fun w => w.mask))
      = interMasks n (l₂.map (fun w => w.mask)) := by
  ext x
  rw [mem_interMasks_verifs, mem_interMasks_verifs]
  constructor
  · rintro ⟨hx, hall⟩
    exact ⟨hx, fun v hv => hall v ((h v).mpr hv)⟩
  · rintro ⟨hx, hall⟩
    exact ⟨hx, fun v hv => hall v ((h v).mp hv)⟩

theorem interMasks_anti {n : ℕ} {l₁ l₂ : List Verifier}
    (h : ∀ v ∈ l₂, v ∈ l₁) :
    interMasks n (l₁.map (fun w => w.mask))
      ⊆ interMasks n (l₂.map (fun w => w.mask)) := by
  intro x hx
  rw [mem_interMasks_verifs] at hx ⊢
  exact ⟨hx.1, fun v hv => hx.2 v (h v hv)⟩

theorem interMasks_concat {n : ℕ} {l : List Verifier} {v : Verifier} :
    interMasks n ((l ++ [v]).map (fun w => w.mask))
      = interMasks n (l.map (fun w => w.mask)) ∩ v.mask := by
  rw [interMasks, interMasks, List.map_append, List.foldl_append]
  rfl

/- ### Invariants of the selection loop -/

theorem reduceLoop_spec (gc : GameConfiguration) (rl : List Rule) (s : ℕ → ℕ) :
    ∀ (fuel : ℕ) (W : Finset ℕ) (acc : List Verifier) (idx : ℕ)
      (W' : Finset ℕ) (acc' : List Verifier) (idx' : ℕ),
      reduceLoop gc rl s fuel W acc idx = .ok (W', acc', idx') →
      W = interMasks gc.solution_count (acc.map (fun w => w.mask)) →
      acc.Nodup → (∀ v ∈ acc, v.rule ∈ rl) →
      W' = interMasks gc.solution_count (acc'.map (fun w => w.mask)) ∧
        acc'.Nodup ∧ (∀ v ∈ acc', v.rule ∈ rl) ∧ W'.card ≤ 1 ∧
        (1 ≤ W.card → 1 ≤ W'.card) ∧ (acc' ≠ acc → 1 < W.card) := by
  intro fuel
  induction fuel with
  | zero =>
      intro W acc idx W' acc' idx' hrun hW hnd hrl
      rw [reduceLoop] at hrun
      split at hrun
      · rename_i hcard
        simp only [GenOutcome.ok.injEq, Prod.mk.injEq] at hrun
        obtain ⟨rfl, rfl, rfl⟩ := hrun
        exact ⟨hW, hnd, hrl, hcard, fun h => h, fun h => absurd rfl h⟩
      · cases hrun
  | succ fuel ih =>
      intro W acc idx W' acc' idx' hrun hW hnd hrl
      rw [reduceLoop] at hrun
      split at hrun
      · rename_i hcard
        simp only [GenOutcome.ok.injEq, Prod.mk.injEq] at hrun
        obtain ⟨rfl, rfl, rfl⟩ := hrun
        exact ⟨hW, hnd, hrl, hcard, fun h => h, fun h => absurd rfl h⟩
      · rename_i hcard
        have hWbig : 1 < W.card := by omega
        split at hrun
        · cases hrun
        · rename_i rule hget
          split at hrun
          · cases hrun
          · rename_i mask hmask
            split at hrun
            · obtain ⟨h1, h2, h3, h4, h5, _⟩ := ih _ _ _ _ _ _ hrun hW hnd hrl
              exact ⟨h1, h2, h3, h4, h5, fun _ => hWbig⟩
            · split at hrun
              · obtain ⟨h1, h2, h3, h4, h5, _⟩ := ih _ _ _ _ _ _ hrun hW hnd hrl
                exact ⟨h1, h2, h3, h4, h5, fun _ => hWbig⟩
              · rename_i hzero hne
                have hnotmem : (⟨rule, mask⟩ : Verifier) ∉ acc := by
                  intro hmem
                  have hsub : W ⊆ mask := by
                    intro x hx
                    rw [hW, mem_interMasks_verifs] at hx
                    exact hx.2 _ hmem
                  exact hne (Finset.inter_eq_left.mpr hsub)
                have hW1 : W ∩ mask
                    = interMasks gc.solution_count
                        ((acc ++ [Verifier.mk rule mask]).map (fun w => w.mask)) := by
                  rw [interMasks_concat, ← hW]
                have hnd1 : (acc ++ [Verifier.mk rule mask]).Nodup := by
                  rw [List.nodup_append]
                  exact ⟨hnd, List.nodup_singleton _,
                    by simpa [List.disjoint_singleton] using hnotmem⟩
                have hrl1 : ∀ v ∈ acc ++ [Verifier.mk rule mask], v.rule ∈ rl := by
                  intro v hv
                  rcases List.mem_append.mp hv with hv | hv
                  · exact hrl v hv
                  · rw [List.mem_singleton.mp hv]
                    exact List.get?_mem hget
                obtain ⟨h1, h2, h3, h4, h5, _⟩ := ih _ _ _ _ _ _ hrun hW1 hnd1 hrl1
                refine ⟨h1, h2, h3, h4, fun _ => h5 ?_, fun _ => hWbig⟩
                omega

/- ### Invariants of the cleanup pass -/

theorem cleanupLoop_subset (gc : GameConfiguration) :
    ∀ (todo before : List Verifier), ∀ v ∈ cleanupLoop gc todo before, v ∈ todo := by
  intro todo
  induction todo with
  | nil => intro before v hv; rw [cleanupLoop] at hv; cases hv
  | cons w todo ih =>
      intro before v hv
      rw [cleanupLoop] at hv
      split at hv
      · exact List.mem_cons_of_mem _ (ih _ v hv)
      · rcases List.mem_cons.mp hv with rfl | h
        · exact List.mem_cons_self _ _
        · exact List.mem_cons_of_mem _ (ih _ v h)

theorem mem_filter_ne {l : List Verifier} {v w : Verifier} :
    w ∈ l.filter (fun u => decide (u ≠ v)) ↔ w ∈ l ∧ w ≠ v := by
  rw [List.mem_filter]
  simp

/-- The cleanup pass never changes the overall mask intersection: a dropped
verifier's mask already contains the intersection of the rest. -/
theorem cleanupLoop_interMasks (gc : GameConfiguration) :
    ∀ (todo before king : List Verifier),
      (∀ v ∈ todo, v ∈ before) → todo.Nodup →
      (∀ v ∈ king, v ∈ before) → (∀ v ∈ king, v ∉ todo) →
      (∀ v, v ∈ before ↔ v ∈ king ++ todo) →
      interMasks gc.solution_count
          ((king ++ cleanupLoop gc todo before).map (fun w => w.mask))
        = interMasks gc.solution_count (before.map (fun w => w.mask)) := by
  intro todo
  induction todo with
  | nil =>
      intro before king _ _ _ _ hequiv
      rw [cleanupLoop]
      exact interMasks_congr (fun v => by simpa using (hequiv v).symm)
  | cons v todo ih =>
      intro before king hsub hnd hking hkingdisj hequiv
      have hvin : v ∈ before := hsub v (List.mem_cons_self _ _)
      have hvnotin : v ∉ todo := (List.nodup_cons.mp hnd).1
      have hvnotking : v ∉ king := fun h => hkingdisj v h (List.mem_cons_self _ _)
      rw [cleanupLoop]
      split
      · rename_i hdrop
        have hother : interMasks gc.solution_count
            ((before.filter (fun u => decide (u ≠ v))).map (fun w => w.mask))
            ⊆ v.mask := Finset.union_eq_left.mp hdrop
        have hbefore : interMasks gc.solution_count
            ((before.filter (fun u => decide (u ≠ v))).map (fun w => w.mask))
            = interMasks gc.solution_count (before.map (fun w => w.mask)) := by
          apply Finset.Subset.antisymm
          · intro x hx
            rw [mem_interMasks_verifs] at hx ⊢
            refine ⟨hx.1, fun w hw => ?_⟩
            by_cases hwv : w = v
            · subst hwv
              exact hother (mem_interMasks_verifs.mpr hx)
            · exact hx.2 w (mem_filter_ne.mpr ⟨hw, hwv⟩)
          · exact interMasks_anti (fun w hw => (mem_filter_ne.mp hw).1)
        rw [← hbefore]
        apply ih
        · intro w hw
          exact mem_filter_ne.mpr ⟨hsub w (List.mem_cons_of_mem _ hw),
            fun h => hvnotin (h ▸ hw)⟩
        · exact (List.nodup_cons.mp hnd).2
        · intro w hw
          exact mem_filter_ne.mpr ⟨hking w hw, fun h => hvnotking (h ▸ hw)⟩
        · intro w hw hwtodo
          exact hkingdisj w hw (List.mem_cons_of_mem _ hwtodo)
        · intro w
          rw [mem_filter_ne, hequiv w, List.mem_append, List.mem_append,
            List.mem_cons]
          constructor
          · rintro ⟨hw | ⟨rfl | hw⟩, hne⟩
            · exact Or.inl hw
            · exact absurd rfl hne
            · exact Or.inr hw
          · rintro (hw | hw)
            · exact ⟨Or.inl hw, fun h => hvnotking (h ▸ hw)⟩
            · exact ⟨Or.inr (Or.inr hw), fun h => hvnotin (h ▸ hw)⟩
      · rename_i hkeep
        have := ih before (king ++ [v])
          (fun w hw => hsub w (List.mem_cons_of_mem _ hw))
          (List.nodup_cons.mp hnd).2
          (by
            intro w hw
            rcases List.mem_append.mp hw with hw | hw
            · exact hking w hw
            · rw [List.mem_singleton.mp hw]; exact hvin)
          (by
            intro w hw hwtodo
            rcases List.mem_append.mp hw with hw | hw
            · exact hkingdisj w hw (List.mem_cons_of_mem _ hwtodo)
            · rw [List.mem_singleton.mp hw] at hwtodo; exact hvnotin hwtodo)
          (by
            intro w
            rw [hequiv w]
            simp only [List.mem_append, List.mem_cons, List.mem_singleton]
            tauto)
        rw [← this]
        apply interMasks_congr
        intro w
        simp only [List.mem_append, List.mem_cons, List.mem_singleton]
        tauto

/-- Every verifier kept by the cleanup pass is useful against the final
retained collection (together with any outer context `king`): some solution
survives all the other retained masks but not its own. -/
theorem cleanupLoop_useful (gc : GameConfiguration) :
    ∀ (todo before king : List Verifier),
      (∀ v ∈ todo, v ∈ before) → todo.Nodup →
      (∀ v ∈ king, v ∈ before) → (∀ v ∈ king, v ∉ todo) →
      ∀ w ∈ cleanupLoop gc todo before,
        ∃ x, x ∈ interMasks gc.solution_count
            (((king ++ cleanupLoop gc todo before).filter
              (fun u => decide (u ≠ w))).map (fun u => u.mask)) ∧
          x ∉ w.mask := by
  intro todo
  induction todo with
  | nil =>
      intro before king _ _ _ _ w hw
      rw [cleanupLoop] at hw
      cases hw
  | cons v todo ih =>
      intro before king hsub hnd hking hkingdisj w hw
      have hvin : v ∈ before := hsub v (List.mem_cons_self _ _)
      have hvnotin : v ∉ todo := (List.nodup_cons.mp hnd).1
      have hvnotking : v ∉ king := fun h => hkingdisj v h (List.mem_cons_self _ _)
      rw [cleanupLoop] at hw ⊢
      split at hw
      · -- v was dropped: recurse on the shrunk before list
        rename_i hdrop
        rw [if_pos hdrop]
        exact ih (before.filter (fun u => decide (u ≠ v))) king
          (fun u hu => mem_filter_ne.mpr ⟨hsub u (List.mem_cons_of_mem _ hu),
            fun h => hvnotin (h ▸ hu)⟩)
          (List.nodup_cons.mp hnd).2
          (fun u hu => mem_filter_ne.mpr ⟨hking u hu, fun h => hvnotking (h ▸ hu)⟩)
          (fun u hu hutodo => hkingdisj u hu (List.mem_cons_of_mem _ hutodo))
          w hw
      · rename_i hkeep
        rw [if_neg hkeep]
        rcases List.mem_cons.mp hw with rfl | hwrest
        · -- the head v itself: the keep condition supplies the witness bit
          have hnsub : ¬ interMasks gc.solution_count
              ((before.filter (fun u => decide (u ≠ w))).map (fun u => u.mask))
              ⊆ w.mask := fun h => hkeep (Finset.union_eq_left.mpr h)
          obtain ⟨x, hxin, hxout⟩ := Finset.not_subset.mp hnsub
          refine ⟨x, ?_, hxout⟩
          rw [mem_interMasks_verifs] at hxin ⊢
          refine ⟨hxin.1, fun u hu => ?_⟩
          have hu' := List.mem_filter.mp hu
          have hune : u ≠ w := by simpa using hu'.2
          rcases List.mem_append.mp hu'.1 with h | h
          · exact hxin.2 u (mem_filter_ne.mpr ⟨hking u h, hune⟩)
          · rcases List.mem_cons.mp h with h | h
            · exact absurd h hune
            · exact hxin.2 u (mem_filter_ne.mpr
                ⟨hsub u (List.mem_cons_of_mem _ (cleanupLoop_subset gc _ _ u h)), hune⟩)
        · -- w in the kept tail: instantiate the IH with king extended by v
          have := ih before (king ++ [v])
            (fun u hu => hsub u (List.mem_cons_of_mem _ hu))
            (List.nodup_cons.mp hnd).2
            (by
              intro u hu
              rcases List.mem_append.mp hu with hu | hu
              · exact hking u hu
              · rw [List.mem_singleton.mp hu]; exact hvin)
            (by
              intro u hu hutodo
              rcases List.mem_append.mp hu with hu | hu
              · exact hkingdisj u hu (List.mem_cons_of_mem _ hutodo)
              · rw [List.mem_singleton.mp hu] at hutodo; exact hvnotin hutodo)
            w hwrest
          obtain ⟨x, hxin, hxout⟩ := this
          refine ⟨x, ?_, hxout⟩
          rw [mem_interMasks_verifs] at hxin ⊢
          refine ⟨hxin.1, fun u hu => ?_⟩
          apply hxin.2 u
          have hu' := List.mem_filter.mp hu
          rw [List.mem_filter]
          refine ⟨?_, hu'.2⟩
          have := hu'.1
          simp only [List.mem_append, List.mem_cons, List.mem_singleton] at this ⊢
          tauto

/- ### The sort (stable ascending insertion, then reversed) -/

theorem insertByCount_perm (v : Verifier) :
    ∀ l : List Verifier, (insertByCount v l).Perm (v :: l) := by
  intro l
  induction l with
  | nil => rw [insertByCount]
  | cons w ws ih =>
      rw [insertByCount]
      split
      · exact List.Perm.refl _
      · exact (List.Perm.cons w ih).trans (List.Perm.swap v w ws)

theorem sortByCount_perm : ∀ l : List Verifier, (sortByCount l).Perm l := by
  intro l
  induction l with
  | nil => rw [sortByCount]
  | cons v vs ih =>
      rw [sortByCount]
      exact (insertByCount_perm v (sortByCount vs)).trans (List.Perm.cons v ih)

/- ### Criteria construction -/

theorem criteriasLoop_spec (gc : GameConfiguration) (s : ℕ → ℕ) :
    ∀ (verifs : List Verifier) (idx : ℕ) (crits : List Criteria) (idx' : ℕ),
      criteriasLoop gc s verifs idx = .ok (crits, idx') →
      crits.map (fun c => c.verif) = verifs ∧
      ∀ c ∈ crits, (c.description, c.rules) ∈ c.verif.rule.get_similar gc := by
  intro verifs
  induction verifs with
  | nil =>
      intro idx crits idx' hrun
      rw [criteriasLoop] at hrun
      cases hrun
      exact ⟨rfl, by intro c hc; cases hc⟩
  | cons v rest ih =>
      intro idx crits idx' hrun
      rw [criteriasLoop] at hrun
      split at hrun
      · cases hrun
      · rename_i g hg
        cases hrest : criteriasLoop gc s rest (idx + 1) with
        | ok r =>
            obtain ⟨cs, idx2⟩ := r
            rw [hrest] at hrun
            simp only [GenOutcome.bind, GenOutcome.ok.injEq, Prod.mk.injEq] at hrun
            obtain ⟨rfl, rfl⟩ := hrun
            obtain ⟨hmap, hmem⟩ := ih (idx + 1) cs idx2 hrest
            constructor
            · simp [hmap]
            · intro c hc
              rcases List.mem_cons.mp hc with rfl | hc
              · exact List.get?_mem hg
              · exact hmem c hc
        | error => rw [hrest] at hrun; simp only [GenOutcome.bind] at hrun; cases hrun
        | panic => rw [hrest] at hrun; simp only [GenOutcome.bind] at hrun; cases hrun
        | outOfFuel => rw [hrest] at hrun; simp only [GenOutcome.bind] at hrun; cases hrun

/- ### Inversion of the generation pipeline -/

theorem GenOutcome.bind_ok {α β : Type} {x : GenOutcome α} {f : α → GenOutcome β}
    {b : β} (h : x.bind f = .ok b) : ∃ a, x = .ok a ∧ f a = .ok b := by
  cases x with
  | ok a => exact ⟨a, rfl, h⟩
  | error => cases h
  | panic => cases h
  | outOfFuel => cases h

theorem generate_rules_ok_inv {gc : GameConfiguration} {rl : List Rule}
    (h : generate_rules gc = .ok rl) :
    rl = (rulesUniverse gc).filter (fun r => difficultyKeep gc r) := by
  rw [generate_rules] at h
  split at h
  · cases h
  · split at h
    · cases h
    · cases h; rfl

theorem generate_game_ok_inv {base column_count difficulty_pct fuel : ℕ}
    {s : ℕ → ℕ} {g : Game}
    (h : generate_game base column_count difficulty_pct fuel s = .ok g) :
    ∃ (W : Finset ℕ) (acc : List Verifier) (idxR : ℕ)
      (crits : List Criteria) (idxC : ℕ),
      reduceLoop ⟨column_count, base, min difficulty_pct 100⟩
          ((rulesUniverse ⟨column_count, base, min difficulty_pct 100⟩).filter
            (fun r => difficultyKeep ⟨column_count, base, min difficulty_pct 100⟩ r))
          s fuel
          (Finset.range
            (GameConfiguration.solution_count ⟨column_count, base, min difficulty_pct 100⟩))
          [] 0
        = .ok (W, acc, idxR) ∧
      cleanupLoop ⟨column_count, base, min difficulty_pct 100⟩
          ((sortByCount acc).reverse) ((sortByCount acc).reverse) ≠ [] ∧
      criteriasLoop ⟨column_count, base, min difficulty_pct 100⟩ s
          (cleanupLoop ⟨column_count, base, min difficulty_pct 100⟩
            ((sortByCount acc).reverse) ((sortByCount acc).reverse)) idxR
        = .ok (crits, idxC) ∧
      g = ⟨⟨column_count, base, min difficulty_pct 100⟩, crits,
           Code.from_shift (trailing_zeros W)
             ⟨column_count, base, min difficulty_pct 100⟩⟩ := by
  rw [generate_game] at h
  obtain ⟨rl, hrl, h⟩ := GenOutcome.bind_ok h
  obtain ⟨r, hr, h⟩ := GenOutcome.bind_ok h
  rw [generate_verificators] at hr
  obtain ⟨t, ht, hr⟩ := GenOutcome.bind_ok hr
  obtain ⟨W, acc, idxR⟩ := t
  simp only [GenOutcome.ok.injEq] at hr
  subst hr
  rw [generate_rules_ok_inv hrl] at ht
  split at h
  · cases h
  · rename_i hlen
    obtain ⟨c, hc, h⟩ := GenOutcome.bind_ok h
    obtain ⟨crits, idxC⟩ := c
    simp only [GenOutcome.ok.injEq] at h
    refine ⟨W, acc, idxR, crits, idxC, ht, ?_, hc, h.symm⟩
    intro hnil
    exact hlen (by simp [hnil])

theorem solutionCompatible_from_shift (gc : GameConfiguration) (shift : ℕ)
    (hb : 1 ≤ gc.base) :
    solutionCompatible gc (Code.from_shift shift gc) = true := by
  rw [solutionCompatible,
    if_neg (by simp [from_shift_digits_length]),
    if_neg ?_]
  simp only [List.any_eq_true, decide_eq_true_eq, not_exists, not_and, not_le]
  intro d hd
  exact from_shift_digits_lt shift gc hb d hd

/- ### Similar-rule groups contain the original rule -/

theorem combos_self_mem {gc : GameConfiguration} {cs : Finset ℕ}
    (h : cs ∈ gc.get_all_column_combinations) :
    cs ∈ gc.get_column_combinations cs.card :=
  List.mem_filter.mpr ⟨h, by simp⟩

/-- Every rule of the generated universe appears in the rule list of each of
its own similar-rule groups. -/
theorem similar_groups_contain_self {gc : GameConfiguration} {r : Rule}
    (hr : r ∈ rulesUniverse gc) :
    ∀ grp ∈ r.get_similar gc, r ∈ grp.2 := by
  intro grp hgrp
  rcases List.mem_append.mp hr with hr12 | hr3
  rcases List.mem_append.mp hr12 with hr1 | hr2
  · -- one-column Pair/Impair/Lowest/Highest rules
    obtain ⟨cs, hcs, hrin⟩ := List.mem_flatMap.mp hr1
    have hmem := combos_self_mem (List.mem_filter.mp hcs).1
    simp only [List.mem_cons, List.not_mem_nil, or_false] at hrin
    rcases hrin with rfl | rfl | rfl | rfl <;>
      simp only [Rule.get_similar, List.mem_cons, List.not_mem_nil, or_false] at hgrp
    · rcases hgrp with rfl | rfl
      · simp
      · exact List.mem_map.mpr ⟨cs, hmem, rfl⟩
    · rcases hgrp with rfl | rfl
      · simp
      · exact List.mem_map.mpr ⟨cs, hmem, rfl⟩
    · rcases hgrp with rfl
      exact List.mem_map.mpr ⟨cs, hmem, rfl⟩
    · rcases hgrp with rfl
      exact List.mem_map.mpr ⟨cs, hmem, rfl⟩
  · -- sum rules over every combination
    obtain ⟨cs, hcs, hrin⟩ := List.mem_flatMap.mp hr2
    have hmem := combos_self_mem hcs
    obtain ⟨v, _, hrin⟩ := List.mem_flatMap.mp hrin
    simp only [List.mem_cons, List.not_mem_nil, or_false] at hrin
    rcases hrin with rfl | rfl | rfl <;>
      simp only [Rule.get_similar, List.mem_cons, List.not_mem_nil, or_false] at hgrp <;>
      rcases hgrp with rfl | rfl
    · simp
    · exact List.mem_map.mpr ⟨cs, hmem, rfl⟩
    · simp
    · exact List.mem_map.mpr ⟨cs, hmem, rfl⟩
    · simp
    · exact List.mem_map.mpr ⟨cs, hmem, rfl⟩
  · -- XColumnsEquals rules
    obtain ⟨count, hcount, hrin⟩ := List.mem_flatMap.mp hr3
    obtain ⟨v, _, rfl⟩ := List.mem_map.mp hrin
    simp only [Rule.get_similar, List.mem_cons, List.not_mem_nil, or_false] at hgrp
    rcases hgrp with rfl
    exact List.mem_map.mpr ⟨count, hcount, rfl⟩

/- ### Concrete data used in witnesses and counterexamples -/

/-- The verifier for the `IsPair([A])` rule in the
`base = 2, column_count = 1` configuration: its mask holds only shift 0. -/
def verifP : Verifier := ⟨.MatchesOp .Pair {0}, {0}⟩

/-- A concrete criteria arising in a real generation run. -/
def critA : Criteria :=
  ⟨verifP, "Column is pair or impair",
    [.MatchesOp .Pair {0}, .MatchesOp .Impair {0}]⟩

/-- The game produced by the model of `generate_game 2 1 0` when every
random draw is 0. -/
def gameA : Game := ⟨⟨1, 2, 0⟩, [critA], ⟨[0]⟩⟩

/-- The game produced by the model of `generate_game 2 1 0` when every
random draw is 1. -/
def gameB : Game :=
  ⟨⟨1, 2, 0⟩,
    [⟨⟨.MatchesOp .Impair {0}, {1}⟩, "One of the column is pair",
      [.MatchesOp .Impair {0}]⟩], ⟨[1]⟩⟩

/-- A configuration with a 4-candidate solution space. -/
def gc4 : GameConfiguration := ⟨1, 4, 0⟩

/-- Three verifiers over the 4-bit space: masks `{0,3}`, `{0,2}`, `{0,1}`
(the attached rules only serve to make the verifiers distinct values). -/
def vA : Verifier := ⟨.XColumnsEquals 0 0, {0, 3}⟩

def vB : Verifier := ⟨.XColumnsEquals 1 0, {0, 2}⟩

def vC : Verifier := ⟨.XColumnsEquals 2 0, {0, 1}⟩

/-- The redundancy pass as claim C4 words it: for each verifier `V` of the
list, `other` is the AND of the masks of all other verifiers of the
ORIGINAL list, and `V` is kept iff `(V.mask OR other) ≠ V.mask`.  This
definition follows the claim's words, for comparison with `cleanupLoop`,
which is translated from the source. -/
def cleanupAgainstOriginal (gc : GameConfiguration) (l : List Verifier) :
    List Verifier :=
  l.filter (fun v => decide (v.mask ∪ interMasks gc.solution_count
    ((l.filter (fun w => decide (w ≠ v))).map (fun w => w.mask)) ≠ v.mask))

/-- Two criterias sharing description, decoy rule list and mask, differing
only in which listed rule is the verifier's true rule. -/
def critX : Criteria :=
  ⟨⟨.XColumnsEquals 1 0, {0}⟩, "There are X columns that equals 0",
    [.XColumnsEquals 1 0, .XColumnsEquals 2 0]⟩

def critY : Criteria :=
  ⟨⟨.XColumnsEquals 2 0, {0}⟩, "There are X columns that equals 0",
    [.XColumnsEquals 1 0, .XColumnsEquals 2 0]⟩

/- ### Claim theorems -/

/-- C1: for every `Game` returned by `generate_game`, the bitwise AND of the
masks of all verifiers retained in the final set (the criterias' verifiers)
has exactly one set bit, and decoding that bit's index via `Code::from_shift`
yields exactly `Game.code`. -/
theorem c1_final_masks_pinpoint_code
    (base column_count difficulty_pct fuel : ℕ) (s : ℕ → ℕ) (g : Game)
    (h : generate_game base column_count difficulty_pct fuel s = .ok g) :
    (interMasks g.configuration.solution_count
        (g.criterias.map (fun c => c.verif.mask))).card = 1 ∧
    Code.from_shift
        (trailing_zeros (interMasks g.configuration.solution_count
          (g.criterias.map (fun c => c.verif.mask)))) g.configuration
      = g.code := by
  obtain ⟨W, acc, idxR, crits, idxC, hreduce, hne, hcrit, hg⟩ :=
    generate_game_ok_inv h
  subst hg
  obtain ⟨hW, hnodup, -, hWle, hWge, hWbig⟩ :=
    reduceLoop_spec _ _ s fuel _ [] 0 W acc idxR hreduce rfl
      List.nodup_nil (by simp)
  have haccne : acc ≠ [] := by
    intro h0
    apply hne
    rw [h0]
    rfl
  have hn2 := hWbig haccne
  have hcard1 : W.card = 1 := le_antisymm hWle (hWge (by omega))
  have hperm : ((sortByCount acc).reverse).Perm acc :=
    (List.reverse_perm _).trans (sortByCount_perm acc)
  obtain ⟨hmap, -⟩ := criteriasLoop_spec _ s _ idxR crits idxC hcrit
  have hclean := cleanupLoop_interMasks
    ⟨column_count, base, min difficulty_pct 100⟩
    ((sortByCount acc).reverse) ((sortByCount acc).reverse) []
    (fun u hu => hu) (hperm.nodup_iff.mpr hnodup) (by simp) (by simp)
    (fun u => by simp)
  rw [List.nil_append] at hclean
  have hAeq : interMasks
      (GameConfiguration.solution_count ⟨column_count, base, min difficulty_pct 100⟩)
      (crits.map (fun c => c.verif.mask)) = W := by
    have hmasks : crits.map (fun c => c.verif.mask)
        = (cleanupLoop ⟨column_count, base, min difficulty_pct 100⟩
            ((sortByCount acc).reverse) ((sortByCount acc).reverse)).map
              (fun w => w.mask) := by
      rw [← hmap, List.map_map]
      rfl
    rw [hmasks, hclean, interMasks_congr (fun v => hperm.mem_iff), ← hW]
  exact ⟨by rw [hAeq, hcard1], by rw [hAeq]⟩

/-- C1 witness: the theorem applied to the concrete run of
`generate_game 2 1 0` with all draws 0. -/
theorem c1_final_masks_pinpoint_code_witness :
    generate_game 2 1 0 5 (fun _ => 0) = .ok gameA ∧
    (interMasks gameA.configuration.solution_count
        (gameA.criterias.map (fun c => c.verif.mask))).card = 1 ∧
    Code.from_shift
        (trailing_zeros (interMasks gameA.configuration.solution_count
          (gameA.criterias.map (fun c => c.verif.mask)))) gameA.configuration
      = gameA.code :=
  ⟨by decide, c1_final_masks_pinpoint_code 2 1 0 5 (fun _ => 0) gameA (by decide)⟩

/-- C2: shift/code conversion is a round-trip bijection on the valid range
(with `base ^ column_count ≤ 2 ^ 32` marking the u32-exact regime). -/
theorem c2_shift_code_bijection :
    (∀ (gc : GameConfiguration) (shift : ℕ),
        gc.solution_count ≤ 2 ^ 32 → shift < gc.solution_count →
        (Code.from_shift shift gc).get_shift gc = shift) ∧
    (∀ (gc : GameConfiguration) (c : Code),
        gc.solution_count ≤ 2 ^ 32 →
        c.digits.length = gc.column_count → (∀ d ∈ c.digits, d < gc.base) →
        Code.from_shift (c.get_shift gc) gc = c ∧
        c.get_shift gc < gc.solution_count) := by
  constructor
  · intro gc shift _ hlt
    rw [get_shift_eq_ofDigits]
    simp only [Code.from_shift, List.reverse_reverse]
    rw [ofDigits_range_map]
    exact Nat.mod_eq_of_lt hlt
  · intro gc c _ hlen hdig
    have hrev : ∀ d ∈ c.digits.reverse, d < gc.base :=
      fun d hd => hdig d (List.mem_reverse.mp hd)
    have hshift : c.get_shift gc = Nat.ofDigits gc.base c.digits.reverse :=
      get_shift_eq_ofDigits c gc
    have hlt : c.get_shift gc < gc.solution_count := by
      rw [hshift, GameConfiguration.solution_count, ← hlen, ← List.length_reverse]
      exact ofDigits_lt_pow gc.base _ hrev
    refine ⟨?_, hlt⟩
    cases c with
    | mk digits =>
        simp only [Code.from_shift, Code.mk.injEq]
        have hmap : (List.range gc.column_count).map
            (fun col => Code.get_shift ⟨digits⟩ gc / gc.base ^ col % gc.base)
            = digits.reverse := by
          apply List.ext_getElem
          · simp only [List.length_map, List.length_range, List.length_reverse]
            simpa using hlen.symm
          · intro i h1 h2
            simp only [List.getElem_map, List.getElem_range]
            rw [hshift, ofDigits_div_pow_mod gc.base _ hrev i,
              List.getD_eq_getElem _ 0 h2]
        rw [hmap, List.reverse_reverse]

/-- C2 witness: the round trip evaluated in the `base = 3, column_count = 2`
configuration at shift 7 and at the code `[2, 1]`. -/
theorem c2_shift_code_bijection_witness :
    (Code.from_shift 7 ⟨2, 3, 0⟩).get_shift ⟨2, 3, 0⟩ = 7 ∧
    Code.from_shift ((Code.mk [2, 1]).get_shift ⟨2, 3, 0⟩) ⟨2, 3, 0⟩
      = Code.mk [2, 1] ∧
    (Code.mk [2, 1]).get_shift ⟨2, 3, 0⟩
      < (⟨2, 3, 0⟩ : GameConfiguration).solution_count :=
  ⟨c2_shift_code_bijection.1 ⟨2, 3, 0⟩ 7 (by decide) (by decide),
   (c2_shift_code_bijection.2 ⟨2, 3, 0⟩ ⟨[2, 1]⟩ (by decide) (by decide)
      (by decide)).1,
   (c2_shift_code_bijection.2 ⟨2, 3, 0⟩ ⟨[2, 1]⟩ (by decide) (by decide)
      (by decide)).2⟩

/-- C3: no verifier returned by `generate_verificators` after the cleanup
pass is redundant: removing any one strictly increases the population count
of the AND of the remainder. -/
theorem c3_no_redundant_verifier (rl : List Rule) (gc : GameConfiguration)
    (s : ℕ → ℕ) (fuel idx : ℕ) (code : Code) (verifs : List Verifier)
    (idx' : ℕ)
    (h : generate_verificators rl gc s fuel idx = .ok ((code, verifs), idx'))
    (v : Verifier) (hv : v ∈ verifs) :
    (interMasks gc.solution_count (verifs.map (fun w => w.mask))).card
      < (interMasks gc.solution_count
          ((verifs.filter (fun w => decide (w ≠ v))).map
            (fun w => w.mask))).card := by
  rw [generate_verificators] at h
  obtain ⟨t, ht, h⟩ := GenOutcome.bind_ok h
  obtain ⟨W, acc, idxR⟩ := t
  simp only [GenOutcome.ok.injEq, Prod.mk.injEq] at h
  obtain ⟨⟨-, hverifs⟩, -⟩ := h
  subst hverifs
  obtain ⟨-, hnodup, -, -, -, -⟩ :=
    reduceLoop_spec gc rl s fuel _ [] idx W acc idxR ht rfl
      List.nodup_nil (by simp)
  have hperm : ((sortByCount acc).reverse).Perm acc :=
    (List.reverse_perm _).trans (sortByCount_perm acc)
  obtain ⟨x, hxin, hxout⟩ := cleanupLoop_useful gc _ _ []
    (fun u hu => hu) (hperm.nodup_iff.mpr hnodup) (by simp) (by simp) v hv
  rw [List.nil_append] at hxin
  apply Finset.card_lt_card
  rw [Finset.ssubset_iff_of_subset
    (interMasks_anti (fun u hu => (mem_filter_ne.mp hu).1))]
  exact ⟨x, hxin, fun hxA => hxout ((mem_interMasks_verifs.mp hxA).2 v hv)⟩

/-- C3 witness: the theorem applied to a concrete run over the single rule
`IsPair([A])` in the `base = 2, column_count = 1` configuration. -/
theorem c3_no_redundant_verifier_witness :
    (interMasks 2 ([verifP].map (fun w => w.mask))).card
      < (interMasks 2
          (([verifP].filter (fun w => decide (w ≠ verifP))).map
            (fun w => w.mask))).card :=
  c3_no_redundant_verifier [.MatchesOp .Pair {0}] ⟨1, 2, 0⟩ (fun _ => 0) 5 0
    ⟨[0]⟩ [verifP] 1 (by decide) verifP (by decide)

/-- C4 counterexample: the cleanup pass applied to the verifier list
`[vA, vB, vC]` (masks `{0,3}`, `{0,2}`, `{0,1}` over 4 candidates) differs
from the claim's original-list semantics: the source keeps `[vB, vC]`
because `vA` is removed from the comparison list once dropped, while the
original-list semantics drops all three. -/
theorem c4_cleanup_differs_from_original_semantics :
    cleanupLoop gc4 [vA, vB, vC] [vA, vB, vC]
      ≠ cleanupAgainstOriginal gc4 [vA, vB, vC] := by decide

/-- C4 (amended): the pass is a single pass in which, for each verifier `V`
of the iterated list, `other` is the AND of the masks of all other
verifiers still present in the working list — from which previously dropped
verifiers have been removed — and `V` is dropped iff
`(V.mask OR other) == V.mask`; on `[vA, vB, vC]` this keeps `[vB, vC]`. -/
theorem c4_cleanup_shrinking_single_pass :
    (∀ (gc : GameConfiguration) (v : Verifier) (todo before : List Verifier),
        cleanupLoop gc (v :: todo) before =
          if v.mask ∪ interMasks gc.solution_count
              ((before.filter (fun w => decide (w ≠ v))).map (fun w => w.mask))
              = v.mask
          then cleanupLoop gc todo (before.filter (fun w => decide (w ≠ v)))
          else v :: cleanupLoop gc todo before) ∧
    cleanupLoop gc4 [vA, vB, vC] [vA, vB, vC] = [vB, vC] :=
  ⟨fun _ _ _ _ => rfl, by decide⟩

/-- C5: `generate_game` with `base = 1` (here `column_count = 3`) reaches
`sum_complexity / verificators.len()` with an empty verifier list and
panics on the division by zero, for every difficulty, fuel bound and draw
stream (the reduction loop itself never executes). -/
theorem c5_base_one_generation_panics (difficulty_pct fuel : ℕ) (s : ℕ → ℕ) :
    generate_game 1 3 difficulty_pct fuel s = .panic := by
  have hok : generate_rules ⟨3, 1, min difficulty_pct 100⟩
      = .ok ((rulesUniverse ⟨3, 1, min difficulty_pct 100⟩).filter
          (fun r => difficultyKeep ⟨3, 1, min difficulty_pct 100⟩ r)) := by
    rw [generate_rules, if_neg, if_neg]
    · rintro ⟨h0, -⟩
      simp [GameConfiguration.solution_count] at h0
    · apply not_not_intro
      have h0 : rulesUniverse ⟨3, 1, min difficulty_pct 100⟩
          = rulesUniverse ⟨3, 1, 0⟩ := rfl
      have h1 : ∀ r : Rule, r.get_mask ⟨3, 1, min difficulty_pct 100⟩
          = r.get_mask ⟨3, 1, 0⟩ := fun _ => rfl
      intro r hr
      rw [h1]
      rw [h0] at hr
      exact (by decide :
        ∀ r ∈ rulesUniverse ⟨3, 1, 0⟩, (r.get_mask ⟨3, 1, 0⟩).isSome) r hr
  rw [generate_game, hok]
  simp only [GenOutcome.bind]
  rw [generate_verificators, reduceLoop.eq_def,
    if_pos (by simp [GameConfiguration.solution_count])]
  simp only [GenOutcome.bind]
  rw [sortByCount]
  simp only [List.reverse_nil]
  rw [cleanupLoop]
  simp

/-- C6 counterexample: for the empty referenced-column set and the code
`[1, 1]` (whose maximum is tied), `Rule::evaluate` of `MatchesOp(Highest, ∅)`
returns true although the claimed right-hand side — every referenced digit
equals the maximum AND the maximum occurs exactly once — is false. -/
theorem c6_highest_empty_columns_counterexample :
    ¬ (Rule.evaluate (.MatchesOp .Highest ∅) ⟨[1, 1]⟩ = some true ↔
        ((∀ c ∈ (∅ : Finset ℕ), (Code.mk [1, 1]).digits.getD c 0
            = ((Code.mk [1, 1]).digits.max?).getD 0) ∧
          (Code.mk [1, 1]).digits.count
            (((Code.mk [1, 1]).digits.max?).getD 0) = 1)) := by
  decide

/-- C6 (amended): for a NONEMPTY in-bounds referenced-column set,
`Rule::evaluate` of `MatchesOp(Highest, cols)` (resp. `Lowest`) returns true
iff every referenced digit equals the code-wide maximum (resp. minimum) and
that extreme value occurs exactly once in the whole code; for an empty set
the rule is trivially true. -/
theorem c6_highest_lowest_semantics (cols : Finset ℕ) (code : Code)
    (hne : cols.Nonempty) (hbound : ∀ c ∈ cols, c < code.digits.length) :
    (Rule.evaluate (.MatchesOp .Highest cols) code = some true ↔
      ((∀ c ∈ cols, code.digits.getD c 0 = (code.digits.max?).getD 0) ∧
        code.digits.count ((code.digits.max?).getD 0) = 1)) ∧
    (Rule.evaluate (.MatchesOp .Lowest cols) code = some true ↔
      ((∀ c ∈ cols, code.digits.getD c 0 = (code.digits.min?).getD 0) ∧
        code.digits.count ((code.digits.min?).getD 0) = 1)) := by
  obtain ⟨c0, hc0⟩ := hne
  have hcount : ∀ a : ℕ, code.digits.count a
      = (code.digits.filter (fun x => decide (x = a))).length := by
    intro a
    rw [List.count, List.countP_eq_length_filter]
    rfl
  constructor
  · rw [Rule.evaluate, if_pos hbound, Option.some.injEq, decide_eq_true_eq,
      hcount]
    constructor
    · intro hall
      exact ⟨fun c hc => (hall c hc).1, (hall c0 hc0).2⟩
    · rintro ⟨h1, h2⟩ c hc
      exact ⟨h1 c hc, h2⟩
  · rw [Rule.evaluate, if_pos hbound, Option.some.injEq, decide_eq_true_eq,
      hcount]
    constructor
    · intro hall
      exact ⟨fun c hc => (hall c hc).1, (hall c0 hc0).2⟩
    · rintro ⟨h1, h2⟩ c hc
      exact ⟨h1 c hc, h2⟩

/-- C6 witness: `Highest` over column A is true on `[4,1,1]` (unique
maximum) and false on `[4,4,1]` (tied maximum). -/
theorem c6_highest_lowest_semantics_witness :
    Rule.evaluate (.MatchesOp .Highest {0}) ⟨[4, 1, 1]⟩ = some true ∧
    Rule.evaluate (.MatchesOp .Highest {0}) ⟨[4, 4, 1]⟩ ≠ some true := by
  constructor
  · exact (c6_highest_lowest_semantics {0} ⟨[4, 1, 1]⟩
      ⟨0, Finset.mem_singleton_self 0⟩ (by decide)).1.mpr (by decide)
  · intro h
    exact absurd ((c6_highest_lowest_semantics {0} ⟨[4, 4, 1]⟩
      ⟨0, Finset.mem_singleton_self 0⟩ (by decide)).1.mp h) (by decide)

/-- C7 counterexample: with identical `(base, column_count, difficulty)` and
fuel, two different draw sequences of the hidden thread-local generator
yield different `Game`s — fixing the parameters alone does not reproduce
the result, and the source offers no seed parameter. -/
theorem c7_same_parameters_different_games :
    generate_game 2 1 0 5 (fun _ => 0) ≠ generate_game 2 1 0 5 (fun _ => 1) := by
  decide

/-- C7 (amended): `generate_game` draws from the hidden thread-local
`rand::thread_rng()`; with those draws modelled as an explicit stream, the
result is a function of `(base, column_count, difficulty, stream)` but not
of the parameters alone: the two concrete streams below both succeed and
produce different games. -/
theorem c7_generation_depends_on_hidden_draws :
    generate_game 2 1 0 5 (fun _ => 0) = .ok gameA ∧
    generate_game 2 1 0 5 (fun _ => 1) = .ok gameB ∧
    gameA ≠ gameB :=
  ⟨by decide, by decide, by decide⟩

/-- C8: every similar-rule group of a universe rule contains the rule
itself, and hence in every generated game each criteria's decoy rule list
contains its verifier's true rule. -/
theorem c8_decoys_contain_true_rule :
    (∀ (gc : GameConfiguration) (r : Rule), r ∈ rulesUniverse gc →
        ∀ grp ∈ r.get_similar gc, r ∈ grp.2) ∧
    (∀ (base column_count difficulty_pct fuel : ℕ) (s : ℕ → ℕ) (g : Game),
        generate_game base column_count difficulty_pct fuel s = .ok g →
        ∀ c ∈ g.criterias, c.verif.rule ∈ c.rules) := by
  refine ⟨fun gc r hr => similar_groups_contain_self hr, ?_⟩
  intro base column_count difficulty_pct fuel s g h c hc
  obtain ⟨W, acc, idxR, crits, idxC, hreduce, hne, hcrit, hg⟩ :=
    generate_game_ok_inv h
  subst hg
  obtain ⟨-, -, hrl, -, -, -⟩ :=
    reduceLoop_spec _ _ s fuel _ [] 0 W acc idxR hreduce rfl
      List.nodup_nil (by simp)
  obtain ⟨hmap, hsim⟩ := criteriasLoop_spec _ s _ idxR crits idxC hcrit
  have hcin : c ∈ crits := by simpa using hc
  have hvmem : c.verif ∈ cleanupLoop ⟨column_count, base, min difficulty_pct 100⟩
      ((sortByCount acc).reverse) ((sortByCount acc).reverse) := by
    rw [← hmap]
    exact List.mem_map_of_mem _ hcin
  have hvacc : c.verif ∈ acc :=
    (List.Perm.mem_iff ((List.reverse_perm _).trans (sortByCount_perm acc))).mp
      (cleanupLoop_subset _ _ _ _ hvmem)
  have huniv : c.verif.rule
      ∈ rulesUniverse ⟨column_count, base, min difficulty_pct 100⟩ :=
    (List.mem_filter.mp (hrl _ hvacc)).1
  exact similar_groups_contain_self huniv _ (hsim c hcin)

/-- C8 witness: in the concrete generated game, the single criteria's decoy
list contains the verifier's true rule. -/
theorem c8_decoys_contain_true_rule_witness :
    critA.verif.rule ∈ critA.rules :=
  c8_decoys_contain_true_rule.2 2 1 0 5 (fun _ => 0) gameA (by decide)
    critA (by decide)

/-- C9 counterexample: two criterias with identical description, identical
decoy rule list and identical mask, differing only in which listed rule is
the verifier's true one, display differently (the `Display` impl prints the
true rule on its own line and appends `" (*)"` to it in the list). -/
theorem c9_display_reveals_true_rule :
    critX.description = critY.description ∧ critX.rules = critY.rules ∧
    criteriaDisplayLines (fun _ => "") critX
      ≠ criteriaDisplayLines (fun _ => "") critY :=
  ⟨rfl, rfl, by decide⟩

/-- C9 (amended): the `Criteria.rules` data itself carries no truth marker,
but the displayed form of a `Criteria` is NOT independent of which listed
rule is the true one: whatever the external mask rendering, the display of
`critX` and `critY` differs (at the `" (*)"` marker line). -/
theorem c9_display_depends_on_true_rule
    (renderMask : Finset ℕ → String) :
    critX.rules = critY.rules ∧ critX.description = critY.description ∧
    critX.verif.mask = critY.verif.mask ∧
    criteriaDisplayLines renderMask critX
      ≠ criteriaDisplayLines renderMask critY := by
  refine ⟨rfl, rfl, rfl, ?_⟩
  intro h
  have h2 := congrArg (fun l => l.getD 2 "") h
  simp only [criteriaDisplayLines, critX, critY, List.map_cons,
    List.getD_cons_succ, List.getD_cons_zero] at h2
  exact absurd h2 (by decide)

/-- C10 counterexample: with `base = 0` and `column_count = 1` the claim's
well-formedness fails: no digit of the produced code can be `< 0` (in the
source this configuration in fact panics on the `% 0` in `from_shift`). -/
theorem c10_from_shift_base_zero_counterexample :
    ¬ (∀ d ∈ (Code.from_shift 0 ⟨1, 0, 0⟩).digits,
        d < (⟨1, 0, 0⟩ : GameConfiguration).base) := by
  decide

/-- C10 (amended): for every configuration with `base ≥ 1`, `from_shift` is
total and well-formed — exactly `column_count` digits, every digit below
`base`, out-of-range shifts wrapping modulo `base ^ column_count` — and the
code of every `Game` returned by `generate_game` satisfies
`is_solution_compatible`. -/
theorem c10_from_shift_wellformed_games_compatible :
    (∀ (shift : ℕ) (gc : GameConfiguration), 1 ≤ gc.base →
        (Code.from_shift shift gc).digits.length = gc.column_count ∧
        (∀ d ∈ (Code.from_shift shift gc).digits, d < gc.base) ∧
        Code.from_shift (shift % gc.solution_count) gc
          = Code.from_shift shift gc) ∧
    (∀ (base column_count difficulty_pct fuel : ℕ) (s : ℕ → ℕ) (g : Game),
        generate_game base column_count difficulty_pct fuel s = .ok g →
        solutionCompatible g.configuration g.code = true) := by
  constructor
  · intro shift gc hb
    exact ⟨from_shift_digits_length shift gc, from_shift_digits_lt shift gc hb,
      from_shift_mod shift gc⟩
  · intro base column_count difficulty_pct fuel s g h
    obtain ⟨W, acc, idxR, crits, idxC, hreduce, hne, hcrit, hg⟩ :=
      generate_game_ok_inv h
    subst hg
    obtain ⟨-, -, -, -, -, hWbig⟩ :=
      reduceLoop_spec _ _ s fuel _ [] 0 W acc idxR hreduce rfl
        List.nodup_nil (by simp)
    have haccne : acc ≠ [] := by
      intro h0
      apply hne
      rw [h0]
      rfl
    have hn2 := hWbig haccne
    rw [Finset.card_range] at hn2
    have hb : 1 ≤ base := by
      rcases Nat.eq_zero_or_pos base with rfl | hpos
      · exfalso
        simp only [GameConfiguration.solution_count] at hn2
        rcases Nat.eq_zero_or_pos column_count with rfl | hc
        · simp at hn2
        · rw [Nat.zero_pow (by omega)] at hn2
          omega
      · exact hpos
    exact solutionCompatible_from_shift _ _ hb

/-- C10 witness: the well-formedness part applied to shift 5 in the
`base = 3, column_count = 2` configuration, plus a generated game. -/
theorem c10_from_shift_wellformed_games_compatible_witness :
    ((Code.from_shift 5 ⟨2, 3, 0⟩).digits.length = 2 ∧
      (∀ d ∈ (Code.from_shift 5 ⟨2, 3, 0⟩).digits, d < 3) ∧
      Code.from_shift (5 % (⟨2, 3, 0⟩ : GameConfiguration).solution_count)
          ⟨2, 3, 0⟩ = Code.from_shift 5 ⟨2, 3, 0⟩) ∧
    solutionCompatible gameA.configuration gameA.code = true :=
  ⟨c10_from_shift_wellformed_games_compatible.1 5 ⟨2, 3, 0⟩ (by decide),
   c10_from_shift_wellformed_games_compatible.2 2 1 0 5 (fun _ => 0) gameA
     (by decide)⟩

end Enigmind
